import Mathlib

/-!
Verification of the Retrieval-Augmented Memory Engine core
(queue service, pinecone adapter, multi-stage search, vector processing).

The definitions below are a shallow embedding of the TypeScript sources:
  - src/lib/pinecone.ts        (isVideoAlreadyProcessed)
  - src/services/queue.ts      (QueueService.enqueueVideoProcessing, processJobs)
  - src/services/search.ts     (RAGEnhancedSearch: enhanceQuery, multiStageRetrieval,
                                aggregateVideoChunks, reRankResults, calculateHybridScore)
  - src/services/vector-processing.ts (VectorProcessingService.storeVectors)

JavaScript numbers are modelled as rationals, JavaScript strings as Lean
strings, and the loosely-typed JSON metadata objects as structures with
Option fields (a `none` models an absent / undefined field).  Effectful
calls to external services (vector store queries, the language model) are
modelled by passing their outcome as an `Except` argument.
-/

/-! ## JavaScript primitives -/

/-- Model of JavaScript `String.prototype.trim`: strip leading and trailing
whitespace characters. -/
def jsTrim (s : String) : String :=
  String.mk (((s.data.dropWhile Char.isWhitespace).reverse.dropWhile Char.isWhitespace).reverse)

/-- Model of the JavaScript string-or pattern `a || b` where the empty string
is falsy. -/
def jsOr (a b : String) : String :=
  if a = "" then b else a

/-- Model of reading a possibly-absent string field under JavaScript
truthiness: `undefined` and the empty string are both falsy. -/
def strTruthy : Option String → Option String
  | none => none
  | some s => if s = "" then none else some s

/-- Model of JavaScript `String.prototype.includes`: substring test
(the empty pattern is contained in every string). -/
def includesSub (s pat : String) : Bool :=
  s.data.tails.any (fun t => pat.data.isPrefixOf t)

/-- Model of JavaScript `String.prototype.toLowerCase`, character by
character. -/
def jsToLower (s : String) : String :=
  String.mk (s.data.map Char.toLower)

mutual

/-- Accumulating worker for `jsSplitWs`; `acc` holds the current piece in
reverse order. -/
def splitWsGo : List Char → List Char → List (List Char)
  | [], acc => [acc.reverse]
  | c :: cs, acc =>
    if c.isWhitespace then acc.reverse :: splitWsSkip cs
    else splitWsGo cs (c :: acc)

/-- Skips the remainder of a whitespace run; at end of input it emits the
trailing empty piece, as JavaScript does. -/
def splitWsSkip : List Char → List (List Char)
  | [] => [[]]
  | c :: cs =>
    if c.isWhitespace then splitWsSkip cs
    else splitWsGo cs [c]

end

/-- Model of JavaScript `s.split(/\s+/)`: split on maximal whitespace runs;
a leading or trailing run contributes an empty piece, and the empty string
splits to `[""]`. -/
def jsSplitWs (s : String) : List String :=
  (splitWsGo s.data []).map String.mk

/-! ## Vector store adapter: src/lib/pinecone.ts -/

/-- A stored vector record, reduced to the metadata field consulted by
duplicate detection.  `videoUrl` is `metadata.videoUrl` of the record. -/
structure VecRecord where
  videoUrl : String
deriving Repr, DecidableEq

/-- Model of `isVideoAlreadyProcessed` (src/lib/pinecone.ts, lines 225-262):
queries the user's namespace with a metadata filter `videoUrl = videoUrl.trim()`
and reports whether any match came back.  `ns` is the list of records in the
user's namespace.  The catch branch (transport error, which returns `false`)
is not modelled: the claims below concern the successful lookup path. -/
def isVideoAlreadyProcessed (ns : List VecRecord) (videoUrl : String) : Bool :=
  ns.any (fun r => r.videoUrl == jsTrim videoUrl)

/-! ## Ingestion queue: src/services/queue.ts -/

/-- A queue job (interface `QueueJob`); the constant `type` tag and the
free-form `data.metadata` payload are omitted, `data.videoUrl` is inlined. -/
structure QueueJob where
  id : String
  userId : String
  videoUrl : String
  attempts : Nat
  maxAttempts : Nat
deriving Repr, DecidableEq

/-- The queue service default `MAX_ATTEMPTS` (src/services/queue.ts line 25). -/
def MAX_ATTEMPTS : Nat := 3

/-- Model of `QueueService.enqueueVideoProcessing` (src/services/queue.ts,
lines 57-108).  `ns` is the caller's vector-store namespace contents, `jobs`
the current queue (a JavaScript `Map` in insertion order), `jobId` the
generated job id.  Returns the result string and the updated queue: an early
return of `"Video already processed"` when the duplicate check fires,
otherwise the new job id and the queue with the job appended. -/
def enqueueVideoProcessing (ns : List VecRecord) (jobs : List QueueJob)
    (userId videoUrl jobId : String) : String × List QueueJob :=
  if isVideoAlreadyProcessed ns videoUrl then
    ("Video already processed", jobs)
  else
    (jobId, jobs ++ [{ id := jobId, userId := userId, videoUrl := videoUrl,
                       attempts := 0, maxAttempts := MAX_ATTEMPTS }])

/-- Model of the `QueueService.processJobs` drain loop (src/services/queue.ts,
lines 110-176) for a queue holding the single job `job`, in the scenario the
retry-exhaustion claim is about: the per-attempt duplicate re-check is false
(nothing was ever stored) and `analyzeVideoFromUrl` throws on every attempt.
Each loop iteration increments `job.attempts`; when `attempts >= maxAttempts`
the error notification is sent and the job is deleted, otherwise the job is
retried.  Returns `(analysis attempts made, error notifications sent,
remaining queue)`; `fuel` bounds the number of loop iterations modelled. -/
def processJobsAlwaysFail (fuel : Nat) (job : QueueJob) : Nat × Nat × List QueueJob :=
  match fuel with
  | 0 => (0, 0, [job])
  | fuel + 1 =>
    let j := { job with attempts := job.attempts + 1 }
    if j.maxAttempts ≤ j.attempts then
      (1, 1, [])
    else
      let r := processJobsAlwaysFail fuel j
      (r.1 + 1, r.2.1, r.2.2)

/-! ## Search service data model: src/services/search.ts -/

/-- Temporal context of an enhanced query (`EnhancedQuery['temporalContext']`). -/
structure TemporalContext where
  timeframe : Option String := none
  recency : Option String := none
deriving Repr, DecidableEq

/-- The `EnhancedQuery` interface (src/services/search.ts, lines 14-24). -/
structure EnhancedQuery where
  originalQuery : String
  searchText : String
  searchTerms : List String
  visualElements : List String
  temporalContext : TemporalContext
  topics : List String
deriving Repr, DecidableEq

/-- A visual element of the language model's structured response
(`{type, value}`); only `value` is consumed. -/
structure ParsedVisualElement where
  type : String
  value : String
deriving Repr, DecidableEq

/-- A topic of the language model's structured response (`{name, relevance}`);
only `name` is consumed. -/
structure ParsedTopic where
  name : String
  relevance : ℚ
deriving Repr, DecidableEq

/-- The loosely-typed object produced by
`geminiService.generateStructuredResponse` as consumed by `enhanceQuery`: a
`none` field models an absent / non-array value (the code guards each field
with `Array.isArray` or truthiness). -/
structure ParsedQueryResponse where
  searchText : Option String := none
  searchTerms : Option (List String) := none
  visualElements : Option (List ParsedVisualElement) := none
  temporalContext : Option TemporalContext := none
  topics : Option (List ParsedTopic) := none
deriving Repr, DecidableEq

/-- Model of `RAGEnhancedSearch.enhanceQuery` (src/services/search.ts, lines
110-216).  `resp` is the outcome of the language-model call: `.error` models
both a failing call and an unparsable structured response (the inner parse
catch and the outer catch build the identical fallback object).  On success
each field is validated and defaulted exactly as in the source. -/
def enhanceQuery (query : String) (resp : Except Unit ParsedQueryResponse) : EnhancedQuery :=
  match resp with
  | .error _ =>
    { originalQuery := query
      searchText := query
      searchTerms := jsSplitWs (jsToLower query)
      visualElements := []
      temporalContext := {}
      topics := [] }
  | .ok parsed =>
    { originalQuery := query
      searchText := jsOr (parsed.searchText.getD "") query
      searchTerms := parsed.searchTerms.getD (jsSplitWs (jsToLower query))
      visualElements := (parsed.visualElements.getD []).map (·.value)
      temporalContext := parsed.temporalContext.getD {}
      topics := (parsed.topics.getD []).map (·.name) }

/-! ## JavaScript Map and Set models

`new Map(entries)` inserts entries left to right; inserting an existing key
overwrites its value in place (keeping the key's original position), a new
key is appended.  `new Set(items)` keeps the first occurrence of each item.
Maps are modelled as association lists in insertion order. -/

/-- Model of `Map.prototype.set`. -/
def jsMapSet (m : List (String × α)) (k : String) (v : α) : List (String × α) :=
  if k ∈ m.map Prod.fst then
    m.map (fun p => if p.1 = k then (k, v) else p)
  else
    m ++ [(k, v)]

/-- Model of `new Map(entries)`: insert all entries in order. -/
def jsMapOfList (l : List (String × α)) : List (String × α) :=
  l.foldl (fun m p => jsMapSet m p.1 p.2) []

/-- Model of `Map.prototype.get`. -/
def jsMapGet (m : List (String × α)) (k : String) : Option α :=
  (m.find? (fun p => p.1 = k)).map Prod.snd

/-- The value of the last entry of `l` carrying key `k`, if any. -/
def lastVal (l : List (String × α)) (k : String) : Option α :=
  match l with
  | [] => none
  | p :: ps =>
    match lastVal ps k with
    | some v => some v
    | none => if p.1 = k then some p.2 else none

/-- Model of `Array.from(new Set(items))`: deduplicate keeping the first
occurrence of each item, preserving order. -/
def dedupFirst [DecidableEq α] (l : List α) : List α :=
  l.foldl (fun acc k => if k ∈ acc then acc else acc ++ [k]) []

/-! ## Stable sorting (JavaScript `Array.prototype.sort`)

Modelled as a stable insertion sort: each element is inserted into the
already-sorted prefix, going past every element it does not strictly
precede. -/

/-- Inserts `x` into `l` before the first element that `x` strictly precedes
(per `lt`). -/
def insertLt (lt : α → α → Bool) (x : α) : List α → List α
  | [] => [x]
  | y :: ys => if lt x y then x :: y :: ys else y :: insertLt lt x ys

/-- Stable sort by the strict-precedence test `lt`. -/
def sortLt (lt : α → α → Bool) (l : List α) : List α :=
  l.foldl (fun acc x => insertLt lt x acc) []


/-! ## Chunk-level matches and aggregated results: src/services/search.ts -/

/-- A visual-content item as stored in chunk metadata (`VisualContentItem`):
`timestamp`, `scene` and `keyElements`; the optional `text` field is not
consumed by any claim and is omitted. -/
structure VisualItem where
  timestamp : String
  scene : String
  keyElements : List String := []
deriving Repr, DecidableEq

/-- An enriched visual item produced by aggregation: the source spreads the
item and overrides `timestamp` (falling back to the chunk timestamp) and
attaches the chunk's `sequenceNumber`. -/
structure AggVisualItem where
  timestamp : String
  scene : String
  keyElements : List String := []
  sequenceNumber : Option Nat := none
deriving Repr, DecidableEq

/-- A topic entry as stored in chunk metadata (`TopicInfo`): name and
relevance; the optional `context` field is not consumed by any claim.  The
topics persisted by the ingestion pipeline carry no `timestamp` field, so
`topic.timestamp` is undefined during aggregation. -/
structure TopicEntry where
  name : String
  relevance : ℚ
deriving Repr, DecidableEq

/-- An enriched topic entry produced by aggregation. -/
structure AggTopicEntry where
  name : String
  relevance : ℚ
  timestamp : String := ""
  sequenceNumber : Option Nat := none
deriving Repr, DecidableEq

/-- The metadata of a chunk-level vector-store match, with every field
optional as in the loosely-typed source (`match.metadata?.x` reads).
`visualContent` and `topics` model the JSON-parsed fields: `none` stands for
a missing field or one that does not parse to an array. -/
structure MatchMeta where
  videoId : Option String := none
  videoUrl : Option String := none
  title : Option String := none
  summary : Option String := none
  description : Option String := none
  sectionTitle : Option String := none
  timestamp : Option String := none
  sequenceNumber : Option Nat := none
  visualContent : Option (List VisualItem) := none
  topics : Option (List TopicEntry) := none
  searchableKeywords : Option (List String) := none
deriving Repr, DecidableEq, Inhabited

/-- A raw vector-store match (`matches[i]` of a Pinecone query response). -/
structure MatchRec where
  score : Option ℚ := none
  metadata : MatchMeta := {}
deriving Repr, DecidableEq, Inhabited

/-- The merged metadata of one aggregated video result (`combinedMetadata`,
src/services/search.ts lines 423-522).  The `audioContent`,
`technicalDetails` and `relevantChunks` aggregates are not consumed by any
claim and are omitted.  Note there is no `keywords` and no `keyElements`
field: the combined metadata does not carry them. -/
structure AggMeta where
  videoId : String := ""
  videoUrl : Option String := none
  title : String := ""
  summary : String := ""
  description : String := ""
  visualContent : List AggVisualItem := []
  topics : List AggTopicEntry := []
  searchableKeywords : List String := []
deriving Repr, DecidableEq, Inhabited

/-- One aggregated per-video result (`AggregatedResult`). -/
structure AggResult where
  id : String := ""
  score : ℚ := 0
  avgScore : ℚ := 0
  metadata : AggMeta := {}
deriving Repr, DecidableEq, Inhabited

/-- Strict precedence of the chunk sort inside `aggregateVideoChunks`
(lines 392-400): ascending `sequenceNumber || 0`, ties broken by
`timestamp || ''` (localeCompare modelled as lexicographic order). -/
def chunkLt (a b : MatchRec) : Bool :=
  let sa := a.metadata.sequenceNumber.getD 0
  let sb := b.metadata.sequenceNumber.getD 0
  if sa = sb then decide ((a.metadata.timestamp.getD "") < (b.metadata.timestamp.getD ""))
  else decide (sa < sb)

/-- The overview-chunk test (lines 403-406): `sequenceNumber === 1` or a
section title containing "overview" (lower-cased). -/
def isOverviewChunk (c : MatchRec) : Bool :=
  c.metadata.sequenceNumber == some 1 ||
    (match c.metadata.sectionTitle with
     | some t => includesSub (jsToLower t) "overview"
     | none => false)

/-- Model of `Math.max(...scores)` for the nonempty score lists produced by
grouping. -/
def listMax (l : List ℚ) : ℚ :=
  l.foldl max (l.headD 0)

/-- The keyed visual-content entries contributed by a list of chunks, in
chunk order (lines 431-446): each parsed visual item yields the string key
`` `${item.timestamp}-${item.scene}` `` paired with the enriched item. -/
def aggVisualPairs (chunks : List MatchRec) : List (String × AggVisualItem) :=
  chunks.flatMap (fun c =>
    match c.metadata.visualContent with
    | some items =>
      items.map (fun it =>
        (it.timestamp ++ "-" ++ it.scene,
         { timestamp := jsOr it.timestamp (c.metadata.timestamp.getD "")
           scene := it.scene
           keyElements := it.keyElements
           sequenceNumber := c.metadata.sequenceNumber }))
    | none => [])

/-- One step of the topics merge (lines 471-488): a topic replaces the entry
stored under its name only when no entry exists or its relevance is strictly
higher. -/
def topicsStep (c : MatchRec) (m : List (String × AggTopicEntry)) :
    List (String × AggTopicEntry) :=
  (c.metadata.topics.getD []).foldl
    (fun m t =>
      let e := { name := t.name, relevance := t.relevance,
                 timestamp := c.metadata.timestamp.getD ""
                 sequenceNumber := c.metadata.sequenceNumber : AggTopicEntry }
      match jsMapGet m t.name with
      | none => jsMapSet m t.name e
      | some ex => if ex.relevance < t.relevance then jsMapSet m t.name e else m)
    m

/-- The topics merge over all chunks of a group. -/
def topicsMapOfChunks (chunks : List MatchRec) : List (String × AggTopicEntry) :=
  chunks.foldl (fun m c => topicsStep c m) []

/-- Combines the chunks grouped under one `videoId` into a single aggregated
result (the body of the `map` on line 390 of src/services/search.ts). -/
def combineGroup (videoId : String) (chunks : List MatchRec) : AggResult :=
  let sorted := sortLt chunkLt chunks
  let overviewChunk := ((sorted.find? isOverviewChunk).orElse (fun _ => sorted.head?)).getD {}
  let scores := sorted.map (fun c => c.score.getD 0)
  let maxScore := listMax scores
  let avgScore := scores.sum / (sorted.length : ℚ)
  { id := videoId
    score := maxScore
    avgScore := avgScore
    metadata :=
      { videoId := videoId
        videoUrl := overviewChunk.metadata.videoUrl
        title := overviewChunk.metadata.title.getD ""
        summary := overviewChunk.metadata.summary.getD ""
        description := overviewChunk.metadata.description.getD ""
        visualContent := (jsMapOfList (aggVisualPairs sorted)).map Prod.snd
        topics := (topicsMapOfChunks sorted).map Prod.snd
        searchableKeywords := dedupFirst (sorted.flatMap
          (fun c => c.metadata.searchableKeywords.getD [])) } }

/-- Grouping step (lines 379-387): a match with a falsy `metadata.videoId`
is skipped; otherwise it is appended to its video's group, creating the
group on first sight. -/
def groupStep (g : List (String × List MatchRec)) (m : MatchRec) :
    List (String × List MatchRec) :=
  match strTruthy m.metadata.videoId with
  | none => g
  | some vid =>
    if vid ∈ g.map Prod.fst then
      g.map (fun p => if p.1 = vid then (p.1, p.2 ++ [m]) else p)
    else
      g ++ [(vid, [m])]

/-- The grouping of matches by `metadata.videoId`, in first-seen order. -/
def groupByVideoId (ms : List MatchRec) : List (String × List MatchRec) :=
  ms.foldl groupStep []

/-- Model of `RAGEnhancedSearch.aggregateVideoChunks` (src/services/search.ts,
lines 375-536): group matches by video id, combine each group, sort the
per-video results by `score` descending and truncate to `topK`. -/
def aggregateVideoChunks (ms : List MatchRec) (topK : Nat) : List AggResult :=
  (sortLt (fun a b : AggResult => decide (b.score < a.score))
    ((groupByVideoId ms).map (fun p => combineGroup p.1 p.2))).take topK

deriving instance DecidableEq for Except

/-! ## Multi-stage retrieval: src/services/search.ts lines 280-373

Each vector-store query is a separate effect whose outcome is passed in as
an `Except Unit (List MatchRec)`: `q1` is the stage-1 filtered query, `q2`
the stage-2 metadata-existence query, `q3` the in-`try` pure vector query,
and `qCatch` the pure vector query issued inside the `catch` handler.
`hasFilters` models `Object.keys(context.filters).length > 0`. -/

/-- The `catch` handler (lines 361-372): one unfiltered pure vector query;
its own failure propagates to the caller. -/
def catchHandler (qCatch : Except Unit (List MatchRec)) (topK : Nat) :
    Except Unit (List AggResult) :=
  match qCatch with
  | .error e => .error e
  | .ok ms => .ok (aggregateVideoChunks ms topK)

/-- Stage 3, the in-`try` pure vector search (lines 351-360): its result is
aggregated even when empty; a throw lands in the `catch` handler. -/
def stage3Run (q3 qCatch : Except Unit (List MatchRec)) (topK : Nat) :
    Except Unit (List AggResult) :=
  match q3 with
  | .error _ => catchHandler qCatch topK
  | .ok ms => .ok (aggregateVideoChunks ms topK)

/-- Stage 2, the metadata-existence fallback (lines 333-349): empty matches
fall through to stage 3; a throw lands in the `catch` handler. -/
def stage2Run (q2 q3 qCatch : Except Unit (List MatchRec)) (topK : Nat) :
    Except Unit (List AggResult) :=
  match q2 with
  | .error _ => catchHandler qCatch topK
  | .ok ms => if ms.isEmpty then stage3Run q3 qCatch topK
              else .ok (aggregateVideoChunks ms topK)

/-- Model of `RAGEnhancedSearch.multiStageRetrieval` (lines 280-373).  When
filters exist, stage 1 runs first: nonempty matches are aggregated and
returned, empty matches fall through to stage 2, and a throw lands directly
in the `catch` handler (skipping stages 2 and 3).  Without filters stage 1
is skipped entirely. -/
def multiStageRetrieval (hasFilters : Bool)
    (q1 q2 q3 qCatch : Except Unit (List MatchRec)) (topK : Nat) :
    Except Unit (List AggResult) :=
  if hasFilters then
    match q1 with
    | .error _ => catchHandler qCatch topK
    | .ok ms => if ms.isEmpty then stage2Run q2 q3 qCatch topK
                else .ok (aggregateVideoChunks ms topK)
  else
    stage2Run q2 q3 qCatch topK

/-! ## Hybrid re-ranking: src/services/search.ts lines 538-580 -/

/-- Model of JavaScript strict equality between a topic object and a query
topic string: `Array.prototype.includes` compares with `===`, and an object
is never strictly equal to a string, so the test is constantly false. -/
def topicEqString (_t : AggTopicEntry) (_s : String) : Bool := false

/-- Model of `RAGEnhancedSearch.calculateHybridScore` (lines 548-580) applied
to an aggregated result.  `metadata.keywords?.includes(term)` reads a field
the combined metadata does not carry, so it contributes `undefined` (falsy);
`metadata.keyElements?.includes(elem)` likewise reads an absent field, so the
visual filter never accepts; `metadata.topics?.includes(topic)` compares the
query topic string against topic objects with `===`, which never holds. -/
def calculateHybridScore (m : AggResult) (q : EnhancedQuery) : ℚ :=
  let score := m.score
  let keywordMatches : Nat := (q.searchTerms.filter (fun term =>
    false ||
    includesSub (jsToLower m.metadata.title) term ||
    includesSub (jsToLower m.metadata.summary) term)).length
  let visualMatches : Nat := (q.visualElements.filter (fun _elem => false)).length
  let topicMatches : Nat := (q.topics.filter (fun topic =>
    m.metadata.topics.any (fun t => topicEqString t topic))).length
  score * (1 + (keywordMatches : ℚ) * 0.2 + (visualMatches : ℚ) * 0.15 +
    (topicMatches : ℚ) * 0.1)

/-- The keyword-match count actually computed by `calculateHybridScore`: query
terms that occur (as given, not lower-cased) as substrings of the lower-cased
title or summary. -/
def keywordMatchCount (m : AggResult) (q : EnhancedQuery) : Nat :=
  (q.searchTerms.filter (fun term =>
    includesSub (jsToLower m.metadata.title) term ||
    includesSub (jsToLower m.metadata.summary) term)).length

/-- Model of `RAGEnhancedSearch.reRankResults` (lines 538-546): recompute
every score with `calculateHybridScore`, sort descending by the new score and
keep the first 5. -/
def reRankResults (results : List AggResult) (q : EnhancedQuery) : List AggResult :=
  (sortLt (fun a b : AggResult => decide (b.score < a.score))
    (results.map (fun r => { r with score := calculateHybridScore r q }))).take 5

/-- The hybrid score as the specification's words describe it (section 4.6
of the spec): match counts are case-insensitive substring / set-membership
hits of the query's terms, visual elements and topics against the result's
title, summary, key-elements and topic names.  Stated for comparison with
`calculateHybridScore`, which is the model of the code. -/
def specHybridScore (m : AggResult) (q : EnhancedQuery) : ℚ :=
  let keywordMatches : Nat := (q.searchTerms.filter (fun term =>
    includesSub (jsToLower m.metadata.title) (jsToLower term) ||
    includesSub (jsToLower m.metadata.summary) (jsToLower term))).length
  let visualMatches : Nat := (q.visualElements.filter (fun elem =>
    m.metadata.visualContent.any (fun it =>
      (it.keyElements.map jsToLower).contains (jsToLower elem)))).length
  let topicMatches : Nat := (q.topics.filter (fun topic =>
    (m.metadata.topics.map (fun t => jsToLower t.name)).contains (jsToLower topic))).length
  m.score * (1 + (keywordMatches : ℚ) * 0.2 + (visualMatches : ℚ) * 0.15 +
    (topicMatches : ℚ) * 0.1)

/-! ## Visual-content chunking: src/services/vector-processing.ts lines 358-416

The loop splitting `visualContent` into sub-chunks only depends on each
scene's serialized length `JSON.stringify(scene).length`, passed here as the
size function `sz`. -/

/-- The chunk-splitting loop (lines 359-378): `cur` and `curSize` are
`currentChunk` and `currentSize`.  A scene that would push the running size
past 35000 closes the current chunk (if nonempty) and starts a new one. -/
def splitVisualGo (sz : α → Nat) (cur : List α) (curSize : Nat) :
    List α → List (List α)
  | [] => if cur.isEmpty then [] else [cur]
  | s :: rest =>
    if 35000 < curSize + sz s then
      if cur.isEmpty then splitVisualGo sz [s] (sz s) rest
      else cur :: splitVisualGo sz [s] (sz s) rest
    else
      splitVisualGo sz (cur ++ [s]) (curSize + sz s) rest

/-- Model of the visual-content split of `VectorProcessingService.storeVectors`. -/
def splitVisualContent (sz : α → Nat) (visual : List α) : List (List α) :=
  splitVisualGo sz [] 0 visual

/-- The id-assignment loop (lines 381-416): sub-chunk `i` is emitted with id
`` `${baseId}_visual_${i}` `` where `baseId` is the video id. -/
def visualVectorsGo (videoId : String) (i : Nat) : List (List α) → List (String × List α)
  | [] => []
  | c :: cs => (videoId ++ "_visual_" ++ toString i, c) :: visualVectorsGo videoId (i + 1) cs

/-- The emitted visual sub-chunk vectors: each sub-chunk paired with its id. -/
def visualVectorsOf (sz : α → Nat) (videoId : String) (visual : List α) :
    List (String × List α) :=
  visualVectorsGo videoId 0 (splitVisualContent sz visual)

/-! ## Library lemmas for the models -/

theorem length_insertLt (lt : α → α → Bool) (x : α) (l : List α) :
    (insertLt lt x l).length = l.length + 1 := by
  induction l with
  | nil => rfl
  | cons y ys ih =>
    simp only [insertLt]
    split <;> simp [ih]

theorem length_sortLt (lt : α → α → Bool) (l : List α) :
    (sortLt lt l).length = l.length := by
  suffices h : ∀ acc : List α, (l.foldl (fun acc x => insertLt lt x acc) acc).length
      = acc.length + l.length by
    simpa using h []
  induction l with
  | nil => simp
  | cons y ys ih =>
    intro acc
    simp only [List.foldl_cons]
    rw [ih (insertLt lt y acc), length_insertLt]
    simp only [List.length_cons]
    omega

theorem mem_insertLt (lt : α → α → Bool) (x z : α) (l : List α) :
    z ∈ insertLt lt x l ↔ z = x ∨ z ∈ l := by
  induction l with
  | nil => simp [insertLt]
  | cons y ys ih =>
    simp only [insertLt]
    split
    · simp
    · simp only [List.mem_cons, ih]
      tauto

theorem mem_sortLt (lt : α → α → Bool) (z : α) (l : List α) :
    z ∈ sortLt lt l → z ∈ l := by
  suffices h : ∀ acc : List α, z ∈ l.foldl (fun acc x => insertLt lt x acc) acc →
      z ∈ acc ∨ z ∈ l by
    intro hz
    rcases h [] hz with h' | h'
    · simp at h'
    · exact h'
  induction l with
  | nil => simp
  | cons y ys ih =>
    intro acc hz
    simp only [List.foldl_cons] at hz
    rcases ih (insertLt lt y acc) hz with h' | h'
    · rw [mem_insertLt] at h'
      rcases h' with h' | h'
      · simp [h']
      · exact Or.inl h'
    · simp [h']

theorem pairwise_insertLt (lt : α → α → Bool) (R : α → α → Prop)
    (hR1 : ∀ a b, lt a b = true → R a b) (hR2 : ∀ a b, lt a b = false → R b a)
    (htrans : ∀ a b c, R a b → R b c → R a c)
    (x : α) (l : List α) (hl : l.Pairwise R) :
    (insertLt lt x l).Pairwise R := by
  induction l with
  | nil => simp [insertLt]
  | cons y ys ih =>
    rw [List.pairwise_cons] at hl
    obtain ⟨hy, hys⟩ := hl
    simp only [insertLt]
    cases hxy : lt x y with
    | true =>
      simp only [if_pos rfl]
      refine List.pairwise_cons.2 ⟨?_, List.pairwise_cons.2 ⟨hy, hys⟩⟩
      intro z hz
      rcases List.mem_cons.1 hz with rfl | hz
      · exact hR1 _ _ hxy
      · exact htrans _ _ _ (hR1 _ _ hxy) (hy z hz)
    | false =>
      simp only [Bool.false_eq_true, if_false]
      refine List.pairwise_cons.2 ⟨?_, ih hys⟩
      intro z hz
      rcases (mem_insertLt lt x z ys).1 hz with rfl | hz
      · exact hR2 _ _ hxy
      · exact hy z hz

theorem pairwise_sortLt (lt : α → α → Bool) (R : α → α → Prop)
    (hR1 : ∀ a b, lt a b = true → R a b) (hR2 : ∀ a b, lt a b = false → R b a)
    (htrans : ∀ a b c, R a b → R b c → R a c)
    (l : List α) : (sortLt lt l).Pairwise R := by
  suffices h : ∀ acc : List α, acc.Pairwise R →
      (l.foldl (fun acc x => insertLt lt x acc) acc).Pairwise R by
    exact h [] (by simp)
  induction l with
  | nil => simp
  | cons y ys ih =>
    intro acc hacc
    simp only [List.foldl_cons]
    exact ih (insertLt lt y acc) (pairwise_insertLt lt R hR1 hR2 htrans y acc hacc)

/-! ## Claim theorems -/

theorem processJobsAlwaysFail_run (fuel : Nat) (job : QueueJob)
    (hlt : job.attempts < job.maxAttempts)
    (hfuel : job.maxAttempts - job.attempts ≤ fuel) :
    processJobsAlwaysFail fuel job = (job.maxAttempts - job.attempts, 1, []) := by
  induction fuel generalizing job with
  | zero => omega
  | succ n ih =>
    simp only [processJobsAlwaysFail]
    by_cases h : job.maxAttempts ≤ job.attempts + 1
    · have : job.maxAttempts - job.attempts = 1 := by omega
      simp [h, this]
    · simp only [if_neg h]
      rw [ih { job with attempts := job.attempts + 1 } (by simpa using by omega)
            (by simp; omega)]
      simp
      omega

/-- C1: if a record whose trimmed `metadata.videoUrl` equals the submitted URL
already exists in the user's namespace (namespace records are written with
trimmed URLs, `hwf`), then `enqueueVideoProcessing` returns the
`"Video already processed"` result and leaves the queue unchanged: no job is
created, so a second submission of the same URL is a no-op. -/
theorem enqueueVideoProcessing_idempotent (ns : List VecRecord) (jobs : List QueueJob)
    (userId videoUrl jobId : String)
    (hwf : ∀ r ∈ ns, jsTrim r.videoUrl = r.videoUrl)
    (hex : ∃ r ∈ ns, jsTrim r.videoUrl = videoUrl) :
    enqueueVideoProcessing ns jobs userId videoUrl jobId =
      ("Video already processed", jobs) := by
  obtain ⟨r, hr, hru⟩ := hex
  have hurl : videoUrl = r.videoUrl := by rw [← hru, hwf r hr]
  have hproc : isVideoAlreadyProcessed ns videoUrl = true := by
    simp only [isVideoAlreadyProcessed, List.any_eq_true]
    exact ⟨r, hr, by rw [hurl, hwf r hr, beq_self_eq_true]⟩
  simp [enqueueVideoProcessing, hproc]

/-- Witness for C1 at a concrete namespace and URL. -/
theorem enqueueVideoProcessing_idempotent_witness :
    enqueueVideoProcessing [⟨"https://v/1"⟩] [] "alice" "https://v/1" "job_1" =
      ("Video already processed", []) :=
  enqueueVideoProcessing_idempotent [⟨"https://v/1"⟩] [] "alice" "https://v/1" "job_1"
    (by decide) ⟨⟨"https://v/1"⟩, by decide, by decide⟩

/-- C2: a freshly enqueued job (zero attempts so far) whose processing step
fails on every attempt is attempted exactly `maxAttempts` times by the drain
loop, the error notification is sent exactly once, and the job is removed
from the queue. -/
theorem processJobs_retry_exhaustion (fuel : Nat) (job : QueueJob)
    (h0 : job.attempts = 0) (hpos : 1 ≤ job.maxAttempts)
    (hfuel : job.maxAttempts ≤ fuel) :
    processJobsAlwaysFail fuel job = (job.maxAttempts, 1, []) := by
  have := processJobsAlwaysFail_run fuel job (by omega) (by omega)
  simpa [h0] using this

/-- Witness for C2 at the default `maxAttempts = 3`. -/
theorem processJobs_retry_exhaustion_witness :
    processJobsAlwaysFail 3 ⟨"job_1", "alice", "u", 0, MAX_ATTEMPTS⟩ = (3, 1, []) :=
  processJobs_retry_exhaustion 3 _ (by decide) (by decide) (by decide)

/-- C3: on any language-model call or parse failure, `enhanceQuery` returns
the deterministic fallback: `searchText` is the original query, `searchTerms`
is the lowercased query split on whitespace, the visual-element and topic
lists are empty and the temporal context is empty.  The Lean model is a total
function, mirroring the fact that both failure modes are caught inside
`enhanceQuery` and never surface to the caller. -/
theorem enhanceQuery_fallback (query : String) (e : Unit) :
    enhanceQuery query (.error e) =
      { originalQuery := query
        searchText := query
        searchTerms := jsSplitWs (jsToLower query)
        visualElements := []
        temporalContext := { timeframe := none, recency := none }
        topics := [] } := by
  rfl

/-! ## JavaScript Map lemmas -/

theorem keys_jsMapSet (m : List (String × α)) (k : String) (v : α) :
    (jsMapSet m k v).map Prod.fst =
      if k ∈ m.map Prod.fst then m.map Prod.fst else m.map Prod.fst ++ [k] := by
  unfold jsMapSet
  split
  · rw [List.map_map]
    refine List.map_congr_left ?_
    intro p _
    by_cases hp : p.1 = k
    · simp [hp]
    · simp [hp]
  · simp

theorem find?_jsMapUpdate_ne (m : List (String × α)) (k : String) (v : α) (q : String)
    (h : q ≠ k) :
    (m.map (fun p => if p.1 = k then (k, v) else p)).find? (fun p => p.1 = q) =
      m.find? (fun p => p.1 = q) := by
  induction m with
  | nil => rfl
  | cons p ps ih =>
    simp only [List.map_cons, List.find?_cons]
    by_cases hp : p.1 = k
    · have h1 : decide (((k, v) : String × α).1 = q) = false :=
        decide_eq_false (fun hh => h hh.symm)
      have h2 : decide (p.1 = q) = false :=
        decide_eq_false (by rw [hp]; exact fun hh => h hh.symm)
      rw [if_pos hp]
      simp only [h1, h2]
      exact ih
    · rw [if_neg hp]
      cases hq : decide (p.1 = q) with
      | true => simp only [hq]
      | false => simp only [hq]; exact ih

theorem find?_jsMapUpdate_eq (m : List (String × α)) (k : String) (v : α)
    (h : k ∈ m.map Prod.fst) :
    (m.map (fun p => if p.1 = k then (k, v) else p)).find? (fun p => p.1 = k) =
      some (k, v) := by
  induction m with
  | nil => simp at h
  | cons p ps ih =>
    simp only [List.map_cons, List.find?_cons]
    by_cases hp : p.1 = k
    · rw [if_pos hp]
      simp
    · rw [if_neg hp]
      have h2 : decide (p.1 = k) = false := decide_eq_false hp
      simp only [h2]
      refine ih ?_
      rw [List.map_cons] at h
      rcases List.mem_cons.1 h with hk | hk
      · exact absurd hk.symm hp
      · exact hk

theorem jsMapGet_jsMapSet (m : List (String × α)) (k : String) (v : α) (q : String) :
    jsMapGet (jsMapSet m k v) q = if q = k then some v else jsMapGet m q := by
  unfold jsMapGet jsMapSet
  by_cases hmem : k ∈ m.map Prod.fst
  · rw [if_pos hmem]
    by_cases hq : q = k
    · subst hq
      rw [find?_jsMapUpdate_eq m q v hmem]
      simp
    · rw [find?_jsMapUpdate_ne m k v q hq, if_neg hq]
  · rw [if_neg hmem]
    by_cases hq : q = k
    · subst hq
      have hnone : m.find? (fun p => p.1 = q) = none := by
        rw [List.find?_eq_none]
        intro x hx hxq
        exact hmem (List.mem_map.2 ⟨x, hx, of_decide_eq_true hxq⟩)
      rw [List.find?_append, hnone]
      simp
    · rw [List.find?_append, if_neg hq]
      have h3 : decide (((k, v) : String × α).1 = q) = false :=
        decide_eq_false (fun hh => hq hh.symm)
      have h4 : List.find? (fun p => p.1 = q) [(k, v)] = none := by
        simp only [List.find?_cons, h3, List.find?_nil]
      rw [h4]
      simp

theorem jsMapGet_jsMapOfList_aux (l : List (String × α)) :
    ∀ (m : List (String × α)) (k : String),
      jsMapGet (l.foldl (fun m p => jsMapSet m p.1 p.2) m) k =
        match lastVal l k with
        | some v => some v
        | none => jsMapGet m k := by
  induction l with
  | nil => intro m k; rfl
  | cons p ps ih =>
    intro m k
    simp only [List.foldl_cons]
    rw [ih (jsMapSet m p.1 p.2) k]
    simp only [lastVal]
    cases lastVal ps k with
    | some v => rfl
    | none =>
      simp only [jsMapGet_jsMapSet]
      by_cases hq : k = p.1
      · simp [hq]
      · have h4 : ¬ p.1 = k := fun hh => hq hh.symm
        simp [hq, h4]

/-- The value a `new Map(entries)` stores under each key is the value of the
last entry with that key. -/
theorem jsMapGet_jsMapOfList (l : List (String × α)) (k : String) :
    jsMapGet (jsMapOfList l) k = lastVal l k := by
  rw [jsMapOfList, jsMapGet_jsMapOfList_aux l [] k]
  cases h : lastVal l k with
  | some v => rfl
  | none => rfl

theorem keys_jsMapOfList_aux (l : List (String × α)) :
    ∀ m : List (String × α),
      (l.foldl (fun m p => jsMapSet m p.1 p.2) m).map Prod.fst =
        (l.map Prod.fst).foldl (fun acc k => if k ∈ acc then acc else acc ++ [k])
          (m.map Prod.fst) := by
  induction l with
  | nil => intro m; rfl
  | cons p ps ih =>
    intro m
    simp only [List.foldl_cons, List.map_cons]
    rw [ih (jsMapSet m p.1 p.2), keys_jsMapSet]

/-- The keys of a `new Map(entries)` are the entry keys deduplicated in
first-appearance order. -/
theorem keys_jsMapOfList (l : List (String × α)) :
    (jsMapOfList l).map Prod.fst = dedupFirst (l.map Prod.fst) := by
  rw [jsMapOfList, keys_jsMapOfList_aux l [], dedupFirst]
  rfl

theorem nodup_dedupFirst_aux [DecidableEq α] (l : List α) :
    ∀ acc : List α, acc.Nodup →
      (l.foldl (fun acc k => if k ∈ acc then acc else acc ++ [k]) acc).Nodup := by
  induction l with
  | nil => intro acc h; exact h
  | cons x xs ih =>
    intro acc h
    simp only [List.foldl_cons]
    by_cases hx : x ∈ acc
    · rw [if_pos hx]; exact ih acc h
    · rw [if_neg hx]
      refine ih (acc ++ [x]) ?_
      rw [List.nodup_append]
      exact ⟨h, List.nodup_singleton x, fun a ha hax => hx (by
        rw [List.mem_singleton] at hax
        rwa [hax] at ha)⟩

theorem nodup_dedupFirst [DecidableEq α] (l : List α) : (dedupFirst l).Nodup :=
  nodup_dedupFirst_aux l [] List.nodup_nil

theorem jsMapGet_of_mem (m : List (String × α)) (k : String) (v : α)
    (hnd : (m.map Prod.fst).Nodup) (hmem : (k, v) ∈ m) :
    jsMapGet m k = some v := by
  induction m with
  | nil => simp at hmem
  | cons p ps ih =>
    simp only [List.map_cons, List.nodup_cons] at hnd
    rcases List.mem_cons.1 hmem with h | h
    · subst h
      simp [jsMapGet]
    · have hne : ¬ p.1 = k := by
        intro hk
        exact hnd.1 (by
          rw [hk]
          exact List.mem_map.2 ⟨(k, v), h, rfl⟩)
      simp only [jsMapGet, List.find?_cons, decide_eq_false hne]
      exact ih hnd.2 h

/-! ## Grouping lemmas -/

theorem keys_groupStep (g : List (String × List MatchRec)) (m : MatchRec) :
    (groupStep g m).map Prod.fst =
      match strTruthy m.metadata.videoId with
      | none => g.map Prod.fst
      | some vid =>
        if vid ∈ g.map Prod.fst then g.map Prod.fst else g.map Prod.fst ++ [vid] := by
  unfold groupStep
  cases strTruthy m.metadata.videoId with
  | none => rfl
  | some vid =>
    dsimp only
    by_cases hv : vid ∈ g.map Prod.fst
    · rw [if_pos hv, if_pos hv, List.map_map]
      refine List.map_congr_left ?_
      intro p _
      by_cases hp : p.1 = vid
      · simp [hp]
      · simp [hp]
    · rw [if_neg hv, if_neg hv]
      simp

theorem keys_groupByVideoId_aux (ms : List MatchRec) :
    ∀ g : List (String × List MatchRec),
      ((ms.foldl groupStep g).map Prod.fst) =
        (ms.filterMap (fun m => strTruthy m.metadata.videoId)).foldl
          (fun acc k => if k ∈ acc then acc else acc ++ [k]) (g.map Prod.fst) := by
  induction ms with
  | nil => intro g; rfl
  | cons m ms ih =>
    intro g
    simp only [List.foldl_cons, List.filterMap_cons]
    cases hv : strTruthy m.metadata.videoId with
    | none =>
      rw [ih (groupStep g m), keys_groupStep, hv]
    | some vid =>
      simp only [List.foldl_cons]
      rw [ih (groupStep g m), keys_groupStep, hv]

/-- The groups built by `aggregateVideoChunks` are keyed by the distinct
truthy `videoId`s in first-seen order. -/
theorem keys_groupByVideoId (ms : List MatchRec) :
    (groupByVideoId ms).map Prod.fst =
      dedupFirst (ms.filterMap (fun m => strTruthy m.metadata.videoId)) := by
  rw [groupByVideoId, keys_groupByVideoId_aux ms [], dedupFirst]
  rfl

/-- The number of aggregated results is the number of distinct truthy video
ids among the matches, capped at `topK`. -/
theorem length_aggregateVideoChunks (ms : List MatchRec) (topK : Nat) :
    (aggregateVideoChunks ms topK).length =
      min topK (dedupFirst (ms.filterMap (fun m => strTruthy m.metadata.videoId))).length := by
  rw [aggregateVideoChunks, List.length_take, length_sortLt, List.length_map]
  have h := keys_groupByVideoId ms
  have hlen : (groupByVideoId ms).length =
      (dedupFirst (ms.filterMap (fun m => strTruthy m.metadata.videoId))).length := by
    rw [← h, List.length_map]
  rw [hlen]

/-! ## Visual-content split lemmas -/

theorem splitVisualGo_spec (sz : α → Nat) (visual : List α) :
    ∀ (cur : List α) (curSize : Nat),
      curSize = (cur.map sz).sum →
      ((cur.map sz).sum ≤ 35000 ∨ ∃ s, cur = [s] ∧ 35000 < sz s) →
      (splitVisualGo sz cur curSize visual).flatten = cur ++ visual ∧
      ∀ c ∈ splitVisualGo sz cur curSize visual,
        c ≠ [] ∧ ((c.map sz).sum ≤ 35000 ∨ ∃ s, c = [s] ∧ 35000 < sz s) := by
  induction visual with
  | nil =>
    intro cur curSize _ hinv
    simp only [splitVisualGo]
    by_cases hc : cur.isEmpty
    · rw [if_pos hc]
      constructor
      · simp [List.isEmpty_iff.1 hc]
      · intro c hc'
        simp at hc'
    · rw [if_neg hc]
      refine ⟨by simp, ?_⟩
      intro c hc'
      rw [List.mem_singleton] at hc'
      subst hc'
      exact ⟨fun hnil => hc (by simp [hnil]), hinv⟩
  | cons s rest ih =>
    intro cur curSize hsize hinv
    simp only [splitVisualGo]
    by_cases h35 : 35000 < curSize + sz s
    · rw [if_pos h35]
      have hnew : (([s] : List α).map sz).sum ≤ 35000 ∨ ∃ t, [s] = [t] ∧ 35000 < sz t := by
        by_cases hs : sz s ≤ 35000
        · left; simpa using hs
        · right; exact ⟨s, rfl, by omega⟩
      by_cases hc : cur.isEmpty
      · rw [if_pos hc]
        obtain ⟨hjoin, hmem⟩ := ih [s] (sz s) (by simp) hnew
        refine ⟨?_, hmem⟩
        rw [hjoin, List.isEmpty_iff.1 hc]
        rfl
      · rw [if_neg hc]
        obtain ⟨hjoin, hmem⟩ := ih [s] (sz s) (by simp) hnew
        constructor
        · simp only [List.flatten, hjoin]
          simp
        · intro c hc'
          rcases List.mem_cons.1 hc' with rfl | hc'
          · exact ⟨fun hnil => hc (by simp [hnil]), hinv⟩
          · exact hmem c hc'
    · rw [if_neg h35]
      have hsum : ((cur ++ [s]).map sz).sum = curSize + sz s := by
        simp [hsize]
      obtain ⟨hjoin, hmem⟩ := ih (cur ++ [s]) (curSize + sz s) hsum.symm
        (Or.inl (by rw [hsum]; omega))
      refine ⟨?_, hmem⟩
      rw [hjoin]
      simp

theorem visualVectorsGo_fst (videoId : String) (cs : List (List α)) :
    ∀ i : Nat, (visualVectorsGo videoId i cs).map Prod.fst =
      (List.range cs.length).map (fun j => videoId ++ "_visual_" ++ toString (i + j)) := by
  induction cs with
  | nil => intro i; rfl
  | cons c cs ih =>
    intro i
    simp only [visualVectorsGo, List.map_cons, List.length_cons, List.range_succ_eq_map,
      List.map_map]
    rw [ih (i + 1)]
    refine congrArg₂ List.cons ?_ ?_
    · simp
    · refine List.map_congr_left ?_
      intro j _
      simp only [Function.comp_apply]
      refine congrArg (fun t => videoId ++ "_visual_" ++ toString t) ?_
      omega

theorem visualVectorsGo_snd (videoId : String) (cs : List (List α)) :
    ∀ i : Nat, (visualVectorsGo videoId i cs).map Prod.snd = cs := by
  induction cs with
  | nil => intro i; rfl
  | cons c cs ih =>
    intro i
    simp only [visualVectorsGo, List.map_cons, ih (i + 1)]

/-! ## Hybrid score lemmas -/

theorem filter_const_false (l : List α) : (l.filter fun _ => false) = [] := by
  induction l with
  | nil => rfl
  | cons a l ih => simp [List.filter_cons, ih]

theorem calculateHybridScore_formula (m : AggResult) (q : EnhancedQuery) :
    calculateHybridScore m q = m.score * (1 + (keywordMatchCount m q : ℚ) * 0.2) := by
  have hv : (q.visualElements.filter fun _elem => false) = [] := filter_const_false _
  have ht : (q.topics.filter fun topic =>
      m.metadata.topics.any fun t => topicEqString t topic) = [] := by
    refine (List.filter_congr ?_).trans (filter_const_false q.topics)
    intro x _
    simp [topicEqString]
  simp only [calculateHybridScore, keywordMatchCount, Bool.false_or]
  rw [hv, ht]
  simp only [List.length_nil, Nat.cast_zero]
  ring

/-! ## Remaining claim theorems -/

/-- C4 (amended): an error thrown at any stage of the staged search lands in
the single `catch` handler, which runs one unfiltered pure vector query; a
stage-1 error therefore skips stage 2 and stage 3 entirely, and the error
propagates to the caller exactly when the recovery query of the `catch`
handler itself fails. -/
theorem multiStageRetrieval_error_fallback (e : Unit)
    (q2 q3 qCatch : Except Unit (List MatchRec)) (k : Nat) :
    multiStageRetrieval true (.error e) q2 q3 qCatch k = catchHandler qCatch k ∧
    (∀ hf : Bool,
      multiStageRetrieval hf (.ok []) (.error e) q3 qCatch k = catchHandler qCatch k) ∧
    (∀ hf : Bool,
      multiStageRetrieval hf (.ok []) (.ok []) (.error e) qCatch k = catchHandler qCatch k) ∧
    catchHandler (.error e) k = .error e ∧
    ∀ ms : List MatchRec, catchHandler (.ok ms) k = .ok (aggregateVideoChunks ms k) := by
  refine ⟨rfl, fun hf => ?_, fun hf => ?_, rfl, fun ms => rfl⟩ <;> cases hf <;> rfl

/-- C4 counterexample: with stage 1 erroring, stage 2 holding a match and the
`catch` recovery query returning nothing, the retriever returns no results
even though stage 2's matches aggregate to a nonempty result — so a stage-1
error is not "treated as zero matches, advancing to stage 2". -/
theorem multiStageRetrieval_error_skips_stage2 :
    multiStageRetrieval true (.error ()) (.ok [⟨some 1, { videoId := some "v" }⟩])
      (.ok [⟨some 1, { videoId := some "v" }⟩]) (.ok []) 5 = .ok [] ∧
    aggregateVideoChunks [⟨some 1, { videoId := some "v" }⟩] 5 ≠ [] := by
  decide

/-- C5 (amended): an empty stage 1 falls through to stage 2 and an empty
stage 2 falls through to stage 3; a nonempty stage is aggregated and
returned, and the number of returned results is the number of distinct
truthy video ids among that stage's matches, capped at `topK` — which can be
fewer than the stage's raw chunk-match count. -/
theorem multiStageRetrieval_stagewise (q2 q3 qCatch : Except Unit (List MatchRec)) (k : Nat) :
    multiStageRetrieval true (.ok []) q2 q3 qCatch k = stage2Run q2 q3 qCatch k ∧
    stage2Run (.ok []) q3 qCatch k = stage3Run q3 qCatch k ∧
    ∀ ms : List MatchRec, ms ≠ [] →
      multiStageRetrieval true (.ok ms) q2 q3 qCatch k = .ok (aggregateVideoChunks ms k) ∧
      (aggregateVideoChunks ms k).length =
        min k (dedupFirst (ms.filterMap (fun m => strTruthy m.metadata.videoId))).length := by
  refine ⟨rfl, rfl, fun ms hms => ?_⟩
  cases ms with
  | nil => exact absurd rfl hms
  | cons a as => exact ⟨rfl, length_aggregateVideoChunks _ _⟩

/-- Witness for C5 at a concrete nonempty stage-1 result. -/
theorem multiStageRetrieval_stagewise_witness :
    multiStageRetrieval true (.ok [⟨some 1, { videoId := some "v" }⟩]) (.ok []) (.ok [])
        (.ok []) 5 =
      .ok (aggregateVideoChunks [⟨some 1, { videoId := some "v" }⟩] 5) ∧
    (aggregateVideoChunks [⟨some 1, { videoId := some "v" }⟩] 5).length =
      min 5 (dedupFirst (([⟨some 1, { videoId := some "v" }⟩] : List MatchRec).filterMap
        (fun m => strTruthy m.metadata.videoId))).length :=
  (multiStageRetrieval_stagewise (.ok []) (.ok []) (.ok []) 5).2.2
    [⟨some 1, { videoId := some "v" }⟩] (by decide)

/-- C5 counterexample: two chunk matches of the same video collapse to a
single aggregated result, so the retriever returns fewer results than the
first nonempty stage produced matches. -/
theorem multiStageRetrieval_collapses_counterexample :
    (multiStageRetrieval true
        (.ok [⟨some 1, { videoId := some "v" }⟩, ⟨some (1/2), { videoId := some "v" }⟩])
        (.ok []) (.ok []) (.ok []) 7).map List.length = .ok 1 ∧
    ([⟨some 1, { videoId := some "v" }⟩, ⟨some (1/2), { videoId := some "v" }⟩] :
      List MatchRec).length = 2 := by
  decide

/-- C6 (amended): the visual-content splitter covers the input exactly (the
concatenation of the sub-chunks is the original scene list, in order), every
emitted sub-chunk is nonempty and either fits the 35000-byte budget or is a
singleton whose single scene already exceeds the budget by itself, and
sub-chunk `i` is emitted with id `<videoId>_visual_<i>`. -/
theorem storeVectors_visual_split (sz : α → Nat) (visual : List α) (videoId : String) :
    (splitVisualContent sz visual).flatten = visual ∧
    (∀ c ∈ splitVisualContent sz visual,
      c ≠ [] ∧ ((c.map sz).sum ≤ 35000 ∨ ∃ s, c = [s] ∧ 35000 < sz s)) ∧
    (visualVectorsOf sz videoId visual).map Prod.fst =
      (List.range (splitVisualContent sz visual).length).map
        (fun i => videoId ++ "_visual_" ++ toString i) ∧
    (visualVectorsOf sz videoId visual).map Prod.snd = splitVisualContent sz visual := by
  obtain ⟨hj, hm⟩ := splitVisualGo_spec sz visual [] 0 rfl (Or.inl (by simp))
  refine ⟨by simpa [splitVisualContent] using hj, hm, ?_, visualVectorsGo_snd _ _ 0⟩
  rw [visualVectorsOf, visualVectorsGo_fst]
  simp

/-- Witness for C6 on two scenes that fit one sub-chunk. -/
theorem storeVectors_visual_split_witness :
    ([20000, 10000] : List Nat) ≠ [] ∧
    ((([20000, 10000] : List Nat).map (fun n : Nat => n)).sum ≤ 35000 ∨
      ∃ s, ([20000, 10000] : List Nat) = [s] ∧ 35000 < (fun n : Nat => n) s) :=
  (storeVectors_visual_split (fun n : Nat => n) [20000, 10000] "v").2.1
    [20000, 10000] (by decide)

/-- C6 counterexample: a single scene whose serialization is 35001 bytes is
emitted as a sub-chunk whose serialized visual content exceeds the 35000-byte
budget, so the builder does not keep every emitted chunk within the budget. -/
theorem storeVectors_oversized_scene_counterexample :
    splitVisualContent (fun n : Nat => n) [35001] = [[35001]] ∧
    35000 < (([35001] : List Nat).map (fun n : Nat => n)).sum := by
  decide

/-- C7: the re-ranker returns at most 5 results regardless of how many
aggregated results are supplied (and of the caller's `topK`, which it does
not consult), the returned list is sorted by the recomputed score in
descending order, and every returned result is an input result rescored with
`calculateHybridScore`. -/
theorem reRankResults_cap (results : List AggResult) (q : EnhancedQuery) :
    (reRankResults results q).length ≤ 5 ∧
    List.Pairwise (fun a b : AggResult => b.score ≤ a.score) (reRankResults results q) ∧
    ∀ r ∈ reRankResults results q, ∃ x ∈ results,
      r = { x with score := calculateHybridScore x q } := by
  refine ⟨?_, ?_, ?_⟩
  · rw [reRankResults, List.length_take]
    exact min_le_left _ _
  · refine List.Pairwise.sublist (List.take_sublist 5 _) ?_
    refine pairwise_sortLt _ _ ?_ ?_ ?_ _
    · exact fun a b h => le_of_lt (of_decide_eq_true h)
    · exact fun a b h => le_of_not_lt (of_decide_eq_false h)
    · exact fun a b c hab hbc => le_trans hbc hab
  · intro r hr
    have hr2 := mem_sortLt _ _ _ (List.mem_of_mem_take hr)
    rcases List.mem_map.1 hr2 with ⟨x, hx, hxr⟩
    exact ⟨x, hx, hxr.symm⟩

/-- Witness for C7 on a singleton input. -/
theorem reRankResults_cap_witness :
    ∃ x ∈ ([{}] : List AggResult),
      ({ ({} : AggResult) with
          score := calculateHybridScore {} ⟨"", "", [], [], {}, []⟩ } : AggResult) =
        { x with score := calculateHybridScore x ⟨"", "", [], [], {}, []⟩ } :=
  (reRankResults_cap [{}] ⟨"", "", [], [], {}, []⟩).2.2 _
    (by simp [reRankResults, sortLt, insertLt])

/-- C8 (amended): the hybrid score is `baseScore * (1 + 0.2 * k)` where `k`
counts the query terms occurring (verbatim) as substrings of the lower-cased
title or summary: the `keywords` and `keyElements` boosts read fields the
aggregated metadata does not carry, and the topic boost compares query topic
strings against topic objects, so the visual and topic boosts are always 0
on aggregated results. -/
theorem calculateHybridScore_keyword_only (m : AggResult) (q : EnhancedQuery) :
    calculateHybridScore m q = m.score * (1 + (keywordMatchCount m q : ℚ) * 0.2) :=
  calculateHybridScore_formula m q

/-- C8 counterexample: a result whose topic list contains a topic named
"pizza" and a query with topic "pizza" gets no topic boost from the code
(score stays 1), while the specified formula (topic hits counted by name)
yields 1.1. -/
theorem calculateHybridScore_topic_counterexample :
    calculateHybridScore
        { score := 1, metadata := { topics := [⟨"pizza", 9/10, "", none⟩] } }
        ⟨"", "", [], [], {}, ["pizza"]⟩ = 1 ∧
    specHybridScore
        { score := 1, metadata := { topics := [⟨"pizza", 9/10, "", none⟩] } }
        ⟨"", "", [], [], {}, ["pizza"]⟩ = 11/10 ∧
    (1 : ℚ) ≠ 11/10 := by
  refine ⟨?_, ?_, by norm_num⟩
  · norm_num [calculateHybridScore, topicEqString]
  · norm_num [specHybridScore]

/-- C9 (amended): aggregation deduplicates visual entries by the
concatenated string key `timestamp-scene`: the stored keys are pairwise
distinct and appear in first-occurrence order, and the value kept for each
key is the last-seen entry with that key.  In particular identical
`(timestamp, scene)` entries collapse to one — but so do distinct pairs
whose concatenations coincide. -/
theorem aggregateVideoChunks_visual_dedup (cs : List MatchRec) :
    ((jsMapOfList (aggVisualPairs cs)).map Prod.fst).Nodup ∧
    (jsMapOfList (aggVisualPairs cs)).map Prod.fst =
      dedupFirst ((aggVisualPairs cs).map Prod.fst) ∧
    ∀ k v, (k, v) ∈ jsMapOfList (aggVisualPairs cs) →
      lastVal (aggVisualPairs cs) k = some v := by
  refine ⟨?_, keys_jsMapOfList _, ?_⟩
  · rw [keys_jsMapOfList]
    exact nodup_dedupFirst _
  · intro k v hm
    rw [← jsMapGet_jsMapOfList]
    exact jsMapGet_of_mem _ _ _ (by rw [keys_jsMapOfList]; exact nodup_dedupFirst _) hm

/-- Witness for C9 at a concrete single-chunk input. -/
theorem aggregateVideoChunks_visual_dedup_witness :
    lastVal (aggVisualPairs
        [⟨some 1, { videoId := some "v", visualContent := some [⟨"1", "s", []⟩] }⟩])
      "1-s" = some ⟨"1", "s", [], none⟩ :=
  (aggregateVideoChunks_visual_dedup
      [⟨some 1, { videoId := some "v", visualContent := some [⟨"1", "s", []⟩] }⟩]).2.2
    "1-s" ⟨"1", "s", [], none⟩ (by decide)

/-- C9 counterexample: the entries `("0-", "0")` and `("0", "-0")` have
distinct `(timestamp, scene)` pairs but the same concatenated key `0--0`, so
the aggregated result keeps only one of them: deduplication is by the
concatenated string, not by the pair. -/
theorem aggregateVideoChunks_pair_key_counterexample :
    (aggregateVideoChunks
        [⟨some 1,
          { videoId := some "v", visualContent := some [⟨"0-", "0", []⟩, ⟨"0", "-0", []⟩] }⟩]
        5).map
      (fun r => r.metadata.visualContent) = [[⟨"0", "-0", [], none⟩]] ∧
    (("0-", "0") : String × String) ≠ ("0", "-0") := by
  decide

/-- C10: with a non-negative base similarity score, the hybrid multiplier
`1 + 0.2k + 0.15v + 0.1t` is at least 1 (the match counts are lengths, hence
non-negative), so re-ranking never lowers a result's score below its base
vector-similarity score. -/
theorem calculateHybridScore_no_lower (m : AggResult) (q : EnhancedQuery)
    (h : 0 ≤ m.score) : m.score ≤ calculateHybridScore m q := by
  rw [calculateHybridScore_formula]
  have hk : (0 : ℚ) ≤ (keywordMatchCount m q : ℚ) * 0.2 := by positivity
  have h1 : (1 : ℚ) ≤ 1 + (keywordMatchCount m q : ℚ) * 0.2 := by linarith
  exact le_mul_of_one_le_right h h1

/-- Witness for C10 at a concrete result with base score 0. -/
theorem calculateHybridScore_no_lower_witness :
    (0 : ℚ) ≤ ({} : AggResult).score ∧
    ({} : AggResult).score ≤ calculateHybridScore {} ⟨"", "", [], [], {}, []⟩ :=
  ⟨le_refl 0, calculateHybridScore_no_lower {} ⟨"", "", [], [], {}, []⟩ (le_refl 0)⟩
